import Mathlib

/-!
Verification development for the scTriangulate pruning core
(src/sctriangulate/prune.py and the pruning-related methods of
src/sctriangulate/main_class.py).

The observation table (a pandas DataFrame in the source) is embedded as a
list of rows.  Each row carries the columns the pruning code reads and
writes: the original-position column `ori` (attached by the pruning
functions themselves), the consensus label column `raw`, the
reference-labeling column `ref` and the output column `pruned`.

Floating-point proportions of the source (`0.6`, `0.05`) are embedded as
exact rationals.  `pandas.Series.value_counts` is embedded as the list of
(value, count) pairs in first-appearance order, stably sorted by count
descending; `pandas.DataFrame.sort_values` and the sort of group keys
performed by `groupby` are embedded with the stable insertion sort of
Mathlib.  `list(set(...))` of Python is embedded as first-occurrence
deduplication (Python set order is unspecified; the claims depend only
on membership and on the absence of duplicates).
-/

namespace ScTri

/-- Input observation before any pruning: its consensus label (column
`raw`) and its reference-labeling cluster (the column named by
`reference`). -/
structure Obs where
  raw : String
  ref : String
deriving DecidableEq, Repr

/-- Observation row as seen inside the pruning functions, after the
original-position column `ori` has been attached, together with the
output column `pruned`. -/
structure Row where
  ori : Nat
  raw : String
  ref : String
  pruned : String
deriving DecidableEq, Repr

/-- Embedding of `obs["ori"] = np.arange(obs.shape[0])` (prune.py lines 28
and 182): each observation gets its original position; the `pruned`
column starts empty. -/
def attachOri (obs : List Obs) : List Row :=
  obs.enum.map (fun p => ⟨p.1, p.2.raw, p.2.ref, ""⟩)

/-- Distinct values of a list in order of first appearance. -/
def firstOccurrences : List String → List String
  | [] => []
  | x :: xs => x :: (firstOccurrences xs).filter (fun v => v ≠ x)

/-- Comparator for sorting (value, count) pairs by count descending; with
a stable sort, ties keep first-appearance order. -/
def countGE (a b : String × Nat) : Prop := b.2 ≤ a.2

instance : DecidableRel countGE := fun a b => Nat.decLe b.2 a.2

instance : IsTotal (String × Nat) countGE :=
  ⟨fun a b => Nat.le_total b.2 a.2⟩

instance : IsTrans (String × Nat) countGE :=
  ⟨fun _ _ _ h1 h2 => Nat.le_trans h2 h1⟩

/-- Unsorted (value, count) pairs of a list, in first-appearance order. -/
def countPairs (xs : List String) : List (String × Nat) :=
  (firstOccurrences xs).map (fun v => (v, xs.count v))

/-- Embedding of `pandas.Series.value_counts()`: (value, count) pairs
sorted by count descending, ties in first-appearance order. -/
def valueCounts (xs : List String) : List (String × Nat) :=
  List.insertionSort countGE (countPairs xs)

/-- Embedding of `abs_thresh = 10 if obs.shape[0] < 50000 else 30`
(prune.py lines 29 and 153). -/
def absThreshOf (n : Nat) : Nat := if n < 50000 then 10 else 30

/-- Characters of a string up to (excluding) the first `@`. -/
def takeUntilSign : List Char → List Char
  | [] => []
  | ch :: rest => if ch = '@' then [] else ch :: takeUntilSign rest

/-- Characters of a string after the first `@`. -/
def dropUntilSign : List Char → List Char
  | [] => []
  | ch :: rest => if ch = '@' then rest else dropUntilSign rest

/-- Embedding of `key_cluster.split("@")[0]`: the labeling name of a
composite `labeling@cluster` label (the text before the first `@`). -/
def labelingOf (c : String) : String := String.mk (takeUntilSign c.data)

/-- Embedding of `key_cluster.split("@")[1]`: the cluster name of a
composite `labeling@cluster` label (the text between the first `@` and
the next `@` if any; labels in this code base contain exactly one `@`). -/
def clusterOf (c : String) : String := String.mk (takeUntilSign (dropUntilSign c.data))

/-- Exact embedding of the float comparison `a / b >= p / q` of the
source (for positive denominators), kept over naturals so that every
decision of the code is kernel-computable. -/
def divGE (a b p q : Nat) : Prop := p * b ≤ q * a

instance : Decidable (divGE a b p q) := Nat.decLe (p * b) (q * a)

/-- Exact embedding of the float comparison `a / b < p / q` of the
source (for positive denominators). -/
def divLT (a b p q : Nat) : Prop := q * a < p * b

instance : Decidable (divLT a b p q) := Nat.decLt (q * a) (p * b)

/-- Comparator sorting rows by the original-position column `ori`. -/
def oriLE (a b : Row) : Prop := a.ori ≤ b.ori

instance : DecidableRel oriLE := fun a b => Nat.decLe a.ori b.ori

instance : IsTotal Row oriLE := ⟨fun a b => Nat.le_total a.ori b.ori⟩

instance : IsTrans Row oriLE := ⟨fun _ _ _ h1 h2 => Nat.le_trans h1 h2⟩

/-- Embedding of `modified_obs.sort_values(by="ori")` (prune.py lines
108, 122 and 195). -/
def sortRowsByOri (rows : List Row) : List Row :=
  List.insertionSort oriLE rows

/-- Boolean lexicographic comparison of character lists by code point,
the order Python uses on strings. -/
def charsLE : List Char → List Char → Bool
  | [], _ => true
  | _ :: _, [] => false
  | a :: as, b :: bs =>
      if a.toNat < b.toNat then true
      else if b.toNat < a.toNat then false
      else charsLE as bs

/-- Lexicographic order on strings by code point (the order of Python
string comparison, used by `groupby` to sort group keys). -/
def strLE (a b : String) : Prop := charsLE a.data b.data = true

instance : DecidableRel strLE := fun a b => instDecidableEqBool (charsLE a.data b.data) true

instance : IsTotal String strLE :=
  ⟨fun a b => by
    have htot : ∀ x y : List Char, charsLE x y = true ∨ charsLE y x = true := by
      intro x
      induction x with
      | nil => intro y; exact Or.inl rfl
      | cons c cs ih =>
          intro y
          cases y with
          | nil => exact Or.inr rfl
          | cons d ds =>
              rcases Nat.lt_trichotomy c.toNat d.toNat with h | h | h
              · left; simp [charsLE, h]
              · have h1 : ¬ c.toNat < d.toNat := by omega
                have h2 : ¬ d.toNat < c.toNat := by omega
                rcases ih ds with h3 | h3
                · left; simp [charsLE, h1, h2, h3]
                · right; simp [charsLE, h1, h2, h3]
              · right; simp [charsLE, h]
    exact htot a.data b.data⟩

instance : IsTrans String strLE :=
  ⟨fun a b c h1 h2 => by
    have htr : ∀ x y z : List Char,
        charsLE x y = true → charsLE y z = true → charsLE x z = true := by
      intro x
      induction x with
      | nil => intro y z _ _; rfl
      | cons u us ih =>
          intro y z hab hbc
          cases y with
          | nil => simp [charsLE] at hab
          | cons v vs =>
              cases z with
              | nil => simp [charsLE] at hbc
              | cons w ws =>
                  by_cases huv : u.toNat < v.toNat
                  · by_cases hvw : v.toNat < w.toNat
                    · have huw : u.toNat < w.toNat := Nat.lt_trans huv hvw
                      simp [charsLE, huw]
                    · by_cases hwv : w.toNat < v.toNat
                      · simp [charsLE, hvw, hwv] at hbc
                      · have huw : u.toNat < w.toNat := by omega
                        simp [charsLE, huw]
                  · by_cases hvu : v.toNat < u.toNat
                    · simp [charsLE, huv, hvu] at hab
                    · by_cases hvw : v.toNat < w.toNat
                      · have huw : u.toNat < w.toNat := by omega
                        simp [charsLE, huw]
                      · by_cases hwv : w.toNat < v.toNat
                        · simp [charsLE, hvw, hwv] at hbc
                        · have hn1 : ¬ u.toNat < w.toNat := by omega
                          have hn2 : ¬ w.toNat < u.toNat := by omega
                          simp [charsLE, huv, hvu] at hab
                          simp [charsLE, hvw, hwv] at hbc
                          simp [charsLE, hn1, hn2]
                          exact ih vs ws hab hbc
    exact htr a.data b.data c.data h1 h2⟩

/-- Embedding of `obs.groupby(by=reference)` (prune.py lines 113 and
184): group keys in sorted order, each group keeping row order. -/
def groupByRef (rows : List Row) : List (String × List Row) :=
  (List.insertionSort strLE (firstOccurrences (rows.map Row.ref))).map
    (fun k => (k, rows.filter (fun r => r.ref = k)))

/-- Maximum of the counts of a value-counts table, embedding
`vc2.max()`. -/
def vcMax (vc : List (String × Nat)) : Nat :=
  (vc.map Prod.snd).foldr max 0

/-- Embedding of `vc2.loc[vc2==vc2.max()].index[0]` (prune.py lines 115
and 173): the first entry holding the maximal count. -/
def mostAbundantOf (vc : List (String × Nat)) : String :=
  ((vc.filter (fun p => p.2 = vcMax vc)).map Prod.fst).headD ""

/-- Embedding of the singleton post-pass shared by both pruning
strategies (prune.py lines 111-122 and 171-177).  The source loop at step
i reads and writes only row i, so it is a per-row map. -/
def postPass (subset : List Row) : List Row :=
  subset.map (fun r =>
    if r.pruned ∈ ((valueCounts (subset.map Row.pruned)).filter
        (fun p => p.2 = 1)).map Prod.fst
    then { r with pruned := mostAbundantOf (valueCounts (subset.map Row.pruned)) }
    else r)

/-- Embedding of `inclusiveness` (prune.py lines 130-145).  The source
receives the whole observation table and two (labeling, cluster)
dictionaries; here every observation is represented by its pair of
values under the two labelings involved.  The result is
(fraction_r, fraction_c). -/
def inclusiveness (obs : List (String × String)) (rCluster cCluster : String) : ℚ × ℚ :=
  let rSet := obs.filter (fun p => p.1 = rCluster)
  let cSet := obs.filter (fun p => p.2 = cCluster)
  let rcI := obs.filter (fun p => p.1 = rCluster ∧ p.2 = cCluster)
  ((rcI.length : ℚ) / rSet.length, (rcI.length : ℚ) / cSet.length)

/-- Decision for one raw cluster of the chunk (prune.py lines 158-168):
`countCluster` is `vc.loc[cluster]`, `total` is `vc.sum()`, the size is
looked up in the SizeIndex through the two halves of the composite
label, and the first matching rule wins.  The float thresholds `0.6` and
`0.05` of the source become the exact comparisons `divGE _ _ 6 10`,
`divGE _ _ 5 100` and `divLT _ _ 5 100`.  The values `fraction_r` and
`fraction_c` computed by `inclusiveness` at line 157 are bound and never
used by the decision, so they do not appear here. -/
def clusterDecision (reference refCluster : String) (sizeDict : String → String → Nat)
    (absThresh total : Nat) (cluster : String) (countCluster : Nat) : String :=
  if divGE countCluster (sizeDict (labelingOf cluster) (clusterOf cluster)) 6 10 then cluster
  else if divGE countCluster total 5 100 then cluster
  else if divLT countCluster total 5 100 ∧ countCluster > absThresh then cluster
  else reference ++ "@" ++ refCluster

/-- Embedding of the decision loop of `run_reference_pruning` (prune.py
lines 152-168): the mapping dictionary built over `vc.index`. -/
def buildMapping (reference refCluster : String) (sizeDict : String → String → Nat)
    (absThresh : Nat) (vc : List (String × Nat)) : List (String × String) :=
  vc.map (fun p =>
    (p.1, clusterDecision reference refCluster sizeDict absThresh
      ((vc.map Prod.snd).sum) p.1 p.2))

/-- Embedding of `run_reference_pruning` (prune.py lines 148-178): build
the mapping over the raw clusters present in the chunk, write the mapped
labels into the `pruned` column, then run the singleton post-pass.  Of
the full observation table received by the source only `obs.shape[0]`
influences the result, so the table argument is its length. -/
def run_reference_pruning (chunk : String × List Row) (reference : String)
    (sizeDict : String → String → Nat) (obsLen : Nat) : List Row :=
  let subset := chunk.2
  let vc := valueCounts (subset.map Row.raw)
  let absThresh := absThreshOf obsLen
  let mapping := buildMapping reference chunk.1 sizeDict absThresh vc
  let withPruned := subset.map (fun r => { r with pruned := (mapping.lookup r.raw).getD "" })
  postPass withPruned

/-- Embedding of `reference_pruning` (prune.py lines 181-196): attach the
original-position column `ori`, group by the reference labeling, prune
every chunk (the pool collects the results in submission order),
concatenate and sort back on `ori`. -/
def reference_pruning (obs : List Obs) (reference : String)
    (sizeDict : String → String → Nat) : List Row :=
  let rows := attachOri obs
  let chunkList := groupByRef rows
  let prunedChunks :=
    chunkList.map (fun chunk => run_reference_pruning chunk reference sizeDict rows.length)
  sortRowsByOri prunedChunks.flatten

/-- Embedding of the invalid-list computation of `reassign_pruning`
(prune.py lines 21-38): start from a deep copy of the externally
supplied list, walk `vc.index` appending every raw cluster whose count
is below the absolute floor or (elif) below five percent of its
SizeIndex size, then deduplicate.  the Python `list(set(invalid))` is
modelled as first-occurrence deduplication. -/
def computeInvalid (rows : List Row) (sizeDict : String → String → Nat)
    (invalid0 : List String) : List String :=
  let absThresh := absThreshOf rows.length
  let vc := valueCounts (rows.map Row.raw)
  let invalid1 := vc.foldl (fun acc p =>
    let size := sizeDict (labelingOf p.1) (clusterOf p.1)
    if p.2 < absThresh then acc ++ [p.1]
    else if divLT p.2 size 5 100 then acc ++ [p.1]
    else acc) invalid0
  firstOccurrences invalid1

/-- Embedding of the data flow of `reassign_pruning` (prune.py lines
18-124).  The standardize / PCA / nearest-centroid classifier of the
source (prune.py lines 44-102, an external scikit-learn pipeline) is
abstracted as the oracle `pred` giving the label predicted for an
invalid observation; all theorems below hold for every `pred`.  Valid
rows keep their raw label as `pruned`, invalid rows receive `pred`,
train rows are concatenated before test rows and sorted on `ori`, then
the per-reference-group singleton post-pass runs and the result is
sorted on `ori` again.  Returns the modified table and the invalid
list, like the source. -/
def reassign_pruning (obs : List Obs) (sizeDict : String → String → Nat)
    (invalid0 : List String) (pred : Row → String) : List Row × List String :=
  let rows := attachOri obs
  let invalid := computeInvalid rows sizeDict invalid0
  let validObs := rows.filter (fun r => r.raw ∉ invalid)
  let invalidObs := rows.filter (fun r => r.raw ∈ invalid)
  let trainRows := validObs.map (fun r => { r with pruned := r.raw })
  let testRows := invalidObs.map (fun r => { r with pruned := pred r })
  let modifiedObs := sortRowsByOri (trainRows ++ testRows)
  let bucket := (groupByRef modifiedObs).map (fun g => postPass g.2)
  (sortRowsByOri bucket.flatten, invalid)

/-- Parameter list of `def reassign_pruning(sctri)` (prune.py line 18). -/
def reassignPruningParams : List String := ["sctri"]

/-- Keyword-argument names of the call
`reassign_pruning(self, abs_thresh=abs_thresh, remove1=remove1,
reference=reference)` at main_class.py line 734. -/
def pruningCallKwargs : List String := ["abs_thresh", "remove1", "reference"]

/-- Names defined at module level in prune.py (its imports and its four
function definitions).  The name `adata`, read by `reassign_pruning` at
prune.py line 20, is not among them. -/
def pruneModuleGlobals : List String :=
  ["sys", "os", "math", "copy", "pd", "np", "plt", "sns", "rankdata",
   "issparse", "mp", "logging", "sc", "ad",
   "reassign_pruning", "inclusiveness", "run_reference_pruning", "reference_pruning"]

/-- Python call binding for a function without default values or a
keyword catch-all: the positional arguments fill the leading parameters
and every keyword argument must name one of the remaining parameters,
otherwise the call raises TypeError before the body runs. -/
def bindCall (params : List String) (nPositional : Nat) (kwargs : List String) :
    Except String Unit :=
  if params.length < nPositional then
    .error "TypeError: too many positional arguments"
  else if kwargs.any (fun k => ¬ (params.drop nPositional).contains k) then
    .error "TypeError: unexpected keyword argument"
  else .ok ()

/-- Embedding of the `method == "reassign"` branch of
`ScTriangulate.pruning` (main_class.py lines 733-736): the call first
binds its arguments against the parameter list of `reassign_pruning`;
were binding to succeed, the body would immediately read the
module-level name `adata` (prune.py line 20), raising NameError when it
is absent from the module globals. -/
def pruningReassignCall : Except String Unit :=
  match bindCall reassignPruningParams 1 pruningCallKwargs with
  | .error e => .error e
  | .ok _ =>
      if pruneModuleGlobals.contains "adata" then .ok ()
      else .error "NameError: name adata is not defined"

/-- Attribute slots of a ScTriangulate object touched by the invalid-set
operations; `none` models an attribute that is not set.  The second
field models the misspelled attribute name `invaild` assigned by
`clear_invalid` (main_class.py line 316). -/
structure InvalidSlots where
  invalid : Option (List String)
  invaild : Option (List String)
deriving DecidableEq, Repr

/-- Embedding of `add_to_invalid` (main_class.py lines 299-307): try to
extend `self.invalid`; on AttributeError create it as the empty list and
extend; finally replace it by `list(set(self.invalid))`, modelled as
first-occurrence deduplication. -/
def add_to_invalid (s : InvalidSlots) (xs : List String) : InvalidSlots :=
  let extended := (s.invalid.getD []) ++ xs
  { s with invalid := some (firstOccurrences extended) }

/-- Embedding of `clear_invalid` (main_class.py lines 314-316):
`del self.invalid` removes the attribute, then the assignment writes the
misspelled attribute `invaild`. -/
def clear_invalid (_s : InvalidSlots) : InvalidSlots :=
  { invalid := none, invaild := some [] }

/-- Embedding of the celltype-sheet generation at the end of
`ScTriangulate.pruning` (main_class.py lines 747-753): after the header
line, one line per unique pruned value of each reference group, produced
by the format string of line 753, which holds two placeholders separated
by one tab.  `pandas.Series.unique()` keeps first-appearance order. -/
def celltypeSheetLines (reference : String) (obs : List Row) : List String :=
  "reference\tcell_cluster\tchoice" ::
  ((groupByRef obs).map (fun g =>
    (firstOccurrences (g.2.map Row.pruned)).map
      (fun reassign => reference ++ "@" ++ g.1 ++ "\t" ++ reassign))).flatten

/-- Number of tab-separated fields of a line (one more than the number
of tab characters). -/
def tabFields (s : String) : Nat := s.data.count '\t' + 1

/-- Default metric list set in `ScTriangulate.__init__` (main_class.py
line 81). -/
def defaultMetrics : List String := ["reassign", "tfidf10", "SCCAF", "doublet"]

/-- Embedding of `self.total_metrics` after `add_new_metrics` extended
it with the user-registered metric names (main_class.py lines 83 and
330-333). -/
def totalMetrics (added : List String) : List String := defaultMetrics ++ added

/-- Embedding of the two identical preludes of `compute_shapley`
(main_class.py lines 625-626 and 680-681):
`score_colname = copy.deepcopy(self.total_metrics)` followed by
`score_colname.remove("doublet")`; the Python `list.remove` deletes the
first occurrence. -/
def scoreColname (total : List String) : List String := total.erase "doublet"

/-- Embedding of the per-labeling tensor column list
`[name + '@' + key for name in score_colname]` (main_class.py lines 635
and 690): the columns of the data tensor handed to the Shapley
computation. -/
def practicalColname (total : List String) (key : String) : List String :=
  (scoreColname total).map (fun name => name ++ "@" ++ key)

/-- Embedding of the metric columns written onto the observation table
for one labeling (main_class.py line 616): every metric of
`total_metrics` receives a `metric@labeling` column. -/
def obsMetricColumns (total : List String) (key : String) : List String :=
  total.map (fun name => name ++ "@" ++ key)

/-- Concrete observation table used by counterexamples and witnesses:
raw cluster q@A has ten observations (nine in reference group R1, one in
R2) and raw cluster q@C has ten (five in each group). -/
def obsW5 : List Obs :=
  [⟨"q@A", "R1"⟩, ⟨"q@A", "R1"⟩, ⟨"q@A", "R1"⟩, ⟨"q@A", "R1"⟩, ⟨"q@A", "R1"⟩,
   ⟨"q@A", "R1"⟩, ⟨"q@A", "R1"⟩, ⟨"q@A", "R1"⟩, ⟨"q@A", "R1"⟩, ⟨"q@A", "R2"⟩,
   ⟨"q@C", "R1"⟩, ⟨"q@C", "R1"⟩, ⟨"q@C", "R1"⟩, ⟨"q@C", "R1"⟩, ⟨"q@C", "R1"⟩,
   ⟨"q@C", "R2"⟩, ⟨"q@C", "R2"⟩, ⟨"q@C", "R2"⟩, ⟨"q@C", "R2"⟩, ⟨"q@C", "R2"⟩]

/-- SizeIndex for the concrete tables: clusters A and C of labeling q
both hold ten observations. -/
def sizeDictW : String → String → Nat := fun _l c =>
  if c = "A" then 10 else if c = "C" then 10 else 0

/-- Variant of `obsW5` with five observations of each raw cluster in
each reference group, so no group-level singleton exists. -/
def obsW5b : List Obs :=
  [⟨"q@A", "R1"⟩, ⟨"q@A", "R1"⟩, ⟨"q@A", "R1"⟩, ⟨"q@A", "R1"⟩, ⟨"q@A", "R1"⟩,
   ⟨"q@A", "R2"⟩, ⟨"q@A", "R2"⟩, ⟨"q@A", "R2"⟩, ⟨"q@A", "R2"⟩, ⟨"q@A", "R2"⟩,
   ⟨"q@C", "R1"⟩, ⟨"q@C", "R1"⟩, ⟨"q@C", "R1"⟩, ⟨"q@C", "R1"⟩, ⟨"q@C", "R1"⟩,
   ⟨"q@C", "R2"⟩, ⟨"q@C", "R2"⟩, ⟨"q@C", "R2"⟩, ⟨"q@C", "R2"⟩, ⟨"q@C", "R2"⟩]

/-- Concrete pruned table used by the celltype-sheet theorems. -/
def rowsW9 : List Row :=
  [⟨0, "q@A", "R1", "q@A"⟩, ⟨1, "q@B", "R1", "q@B"⟩, ⟨2, "q@A", "R2", "q@A"⟩]

/-- Concrete post-pass group used by the witnesses: pruned cluster x is
a singleton, pruned cluster y has two members. -/
def subsetW6 : List Row :=
  [⟨0, "a", "R1", "x"⟩, ⟨1, "b", "R1", "y"⟩, ⟨2, "c", "R1", "y"⟩]

/-- Three observations used by the order-preservation witness. -/
def obsW3 : List Obs := [⟨"q@A", "R1"⟩, ⟨"q@B", "R2"⟩, ⟨"q@C", "R1"⟩]

/-- A partition of `attachOri obsW3` into two chunks (one per reference
group). -/
def piecesW3 : List (List Row) :=
  [[⟨0, "q@A", "R1", ""⟩, ⟨2, "q@C", "R1", ""⟩], [⟨1, "q@B", "R2", ""⟩]]

/-- The same chunks collected in a different completion order. -/
def piecesAltW3 : List (List Row) :=
  [[⟨1, "q@B", "R2", ""⟩], [⟨0, "q@A", "R1", ""⟩, ⟨2, "q@C", "R1", ""⟩]]

end ScTri

namespace ScTri

/-- Justification of the `divGE` embedding: for positive denominators it
coincides with the rational comparison the Python floats approximate. -/
theorem divGE_iff_rat (a b p q : Nat) (hb : 0 < b) (hq : 0 < q) :
    divGE a b p q ↔ ((p : ℚ) / q ≤ (a : ℚ) / b) := by
  unfold divGE
  rw [Nat.mul_comm q a]
  rw [div_le_div_iff₀ (by exact_mod_cast hq) (by exact_mod_cast hb)]
  exact_mod_cast Iff.rfl

/-- Justification of the `divLT` embedding: for positive denominators it
coincides with the rational comparison the Python floats approximate. -/
theorem divLT_iff_rat (a b p q : Nat) (hb : 0 < b) (hq : 0 < q) :
    divLT a b p q ↔ ((a : ℚ) / b < (p : ℚ) / q) := by
  unfold divLT
  rw [Nat.mul_comm q a]
  rw [div_lt_div_iff₀ (by exact_mod_cast hb) (by exact_mod_cast hq)]
  exact_mod_cast Iff.rfl

theorem mem_firstOccurrences {v : String} :
    ∀ {xs : List String}, v ∈ firstOccurrences xs ↔ v ∈ xs := by
  intro xs
  induction xs with
  | nil => simp [firstOccurrences]
  | cons x t ih =>
      by_cases hvx : v = x
      · subst hvx; simp [firstOccurrences]
      · simp [firstOccurrences, hvx, ih]

theorem nodup_firstOccurrences : ∀ xs : List String, (firstOccurrences xs).Nodup := by
  intro xs
  induction xs with
  | nil => simp [firstOccurrences]
  | cons x t ih =>
      refine List.Nodup.cons ?_ (ih.filter _)
      intro hx
      have := List.of_mem_filter hx
      simp at this

theorem countPairs_keys (xs : List String) :
    (countPairs xs).map Prod.fst = firstOccurrences xs := by
  rw [countPairs, List.map_map]
  exact List.map_id _

theorem mem_countPairs {v : String} {n : Nat} {xs : List String} :
    (v, n) ∈ countPairs xs ↔ v ∈ xs ∧ n = xs.count v := by
  constructor
  · intro h
    rcases List.mem_map.mp h with ⟨u, hu, hequ⟩
    cases hequ
    exact ⟨mem_firstOccurrences.mp hu, rfl⟩
  · rintro ⟨hv, rfl⟩
    exact List.mem_map.mpr ⟨v, mem_firstOccurrences.mpr hv, rfl⟩

theorem sum_map_erase (f : String → Nat) {l : List String} {x : String} (hx : x ∈ l) :
    (l.map f).sum = f x + ((l.erase x).map f).sum := by
  have hperm := (List.perm_cons_erase hx).map f
  rw [hperm.sum_eq]
  simp

theorem sum_counts_firstOccurrences :
    ∀ xs : List String, ((firstOccurrences xs).map (fun v => xs.count v)).sum = xs.length := by
  intro xs
  induction xs with
  | nil => simp [firstOccurrences]
  | cons x t ih =>
      have hFOfilter : (firstOccurrences t).filter (fun v => v ≠ x) =
          (firstOccurrences t).erase x := by
        rw [(nodup_firstOccurrences t).erase_eq_filter x]
        apply List.filter_congr
        intro v _
        by_cases h : v = x
        · simp [h]
        · simp [h]
      have hmapcong :
          ((firstOccurrences t).erase x).map (fun v => (x :: t).count v) =
            ((firstOccurrences t).erase x).map (fun v => t.count v) := by
        apply List.map_congr_left
        intro v hv
        have hvx : v ≠ x := ((nodup_firstOccurrences t).mem_erase_iff.mp hv).1
        simp [List.count_cons, hvx]
      show (x :: t).count x +
          (((firstOccurrences t).filter (fun v => v ≠ x)).map (fun v => (x :: t).count v)).sum =
          (x :: t).length
      rw [hFOfilter, hmapcong]
      by_cases hx : x ∈ firstOccurrences t
      · have hsplit := sum_map_erase (fun v => t.count v) hx
        rw [ih] at hsplit
        have hsplit2 : t.length =
            t.count x + (((firstOccurrences t).erase x).map (fun v => t.count v)).sum := hsplit
        simp only [List.count_cons_self, List.length_cons]
        omega
      · have hxt : x ∉ t := fun hmem => hx (mem_firstOccurrences.mpr hmem)
        rw [List.erase_of_not_mem hx, ih]
        simp only [List.count_cons_self, List.length_cons, List.count_eq_zero_of_not_mem hxt]
        omega

theorem filter_orderedInsert_count (k : Nat) (p : String × Nat) :
    ∀ l : List (String × Nat),
      (List.orderedInsert countGE p l).filter (fun q => q.2 = k) =
        if p.2 = k then p :: l.filter (fun q => q.2 = k)
        else l.filter (fun q => q.2 = k) := by
  intro l
  induction l with
  | nil =>
      simp only [List.orderedInsert, List.filter]
      by_cases hp : p.2 = k
      · simp [hp]
      · simp [hp]
  | cons b t ih =>
      simp only [List.orderedInsert]
      by_cases hins : countGE p b
      · rw [if_pos hins]
        by_cases hp : p.2 = k
        · simp [hp, List.filter_cons]
        · simp [hp, List.filter_cons]
      · rw [if_neg hins]
        have hpb : p.2 < b.2 := Nat.lt_of_not_le hins
        by_cases hp : p.2 = k
        · have hb : b.2 ≠ k := by omega
          simp only [List.filter_cons, ih, if_pos hp]
          simp [hb]
        · simp only [List.filter_cons, ih, if_neg hp]

theorem filter_insertionSort_count (k : Nat) :
    ∀ l : List (String × Nat),
      (List.insertionSort countGE l).filter (fun q => q.2 = k) =
        l.filter (fun q => q.2 = k) := by
  intro l
  induction l with
  | nil => rfl
  | cons a t ih =>
      simp only [List.insertionSort]
      rw [filter_orderedInsert_count k a (List.insertionSort countGE t)]
      by_cases ha : a.2 = k
      · rw [if_pos ha, ih]
        simp [List.filter_cons, ha]
      · rw [if_neg ha, ih]
        simp [List.filter_cons, ha]

theorem valueCounts_perm (xs : List String) :
    List.Perm (valueCounts xs) (countPairs xs) :=
  List.perm_insertionSort countGE (countPairs xs)

theorem mem_valueCounts {v : String} {n : Nat} {xs : List String} :
    (v, n) ∈ valueCounts xs ↔ v ∈ xs ∧ n = xs.count v :=
  ((valueCounts_perm xs).mem_iff).trans mem_countPairs

theorem valueCounts_keys_nodup (xs : List String) :
    ((valueCounts xs).map Prod.fst).Nodup := by
  have hperm := (valueCounts_perm xs).map Prod.fst
  rw [hperm.nodup_iff, countPairs_keys]
  exact nodup_firstOccurrences xs

theorem sum_valueCounts (xs : List String) :
    ((valueCounts xs).map Prod.snd).sum = xs.length := by
  have hperm := (valueCounts_perm xs).map Prod.snd
  rw [hperm.sum_eq]
  have hsnd : (countPairs xs).map Prod.snd =
      (firstOccurrences xs).map (fun v => xs.count v) := by
    rw [countPairs, List.map_map]
    rfl
  rw [hsnd, sum_counts_firstOccurrences]

theorem filter_valueCounts_count (xs : List String) (k : Nat) :
    (valueCounts xs).filter (fun q => q.2 = k) =
      (countPairs xs).filter (fun q => q.2 = k) :=
  filter_insertionSort_count k (countPairs xs)

theorem le_foldrMax {x : Nat} : ∀ {l : List Nat}, x ∈ l → x ≤ l.foldr max 0 := by
  intro l
  induction l with
  | nil => intro h; simp at h
  | cons a t ih =>
      intro h
      rcases List.mem_cons.mp h with rfl | ht
      · exact Nat.le_max_left _ _
      · exact Nat.le_trans (ih ht) (Nat.le_max_right _ _)

theorem foldrMax_le {m : Nat} : ∀ {l : List Nat}, (∀ x ∈ l, x ≤ m) → l.foldr max 0 ≤ m := by
  intro l
  induction l with
  | nil => intro _; simp
  | cons a t ih =>
      intro h
      simp only [List.foldr_cons]
      exact Nat.max_le.mpr
        ⟨h a (List.mem_cons_self a t), ih (fun x hx => h x (List.mem_cons_of_mem a hx))⟩

theorem foldrMax_mem : ∀ {l : List Nat}, l ≠ [] → l.foldr max 0 ∈ l := by
  intro l
  induction l with
  | nil => intro h; exact absurd rfl h
  | cons a t ih =>
      intro _
      cases t with
      | nil => simp
      | cons b u =>
          rcases Nat.le_total ((b :: u).foldr max 0) a with h | h
          · simp only [List.foldr_cons] at h ⊢
            rw [Nat.max_eq_left h]
            exact List.mem_cons_self _ _
          · simp only [List.foldr_cons] at h ⊢
            rw [Nat.max_eq_right h]
            exact List.mem_cons_of_mem a (ih (by simp))

theorem vcMax_valueCounts (xs : List String) :
    vcMax (valueCounts xs) = vcMax (countPairs xs) := by
  have hperm := (valueCounts_perm xs).map Prod.snd
  apply Nat.le_antisymm
  · exact foldrMax_le (fun x hx => le_foldrMax (hperm.mem_iff.mp hx))
  · exact foldrMax_le (fun x hx => le_foldrMax (hperm.mem_iff.mpr hx))


theorem vcMax_count_le {xs : List String} {v : String} (hv : v ∈ xs) :
    xs.count v ≤ vcMax (valueCounts xs) := by
  have hp : (v, xs.count v) ∈ valueCounts xs := mem_valueCounts.mpr ⟨hv, rfl⟩
  exact le_foldrMax (List.mem_map_of_mem Prod.snd hp)

theorem headD_mem {α : Type} {l : List α} (h : l ≠ []) (d : α) : l.headD d ∈ l := by
  cases l with
  | nil => exact absurd rfl h
  | cons a t => exact List.mem_cons_self a t

theorem firstOccurrences_ne_nil {xs : List String} (h : xs ≠ []) :
    firstOccurrences xs ≠ [] := by
  cases xs with
  | nil => exact absurd rfl h
  | cons a t => simp [firstOccurrences]

theorem mapfst_filter_countPairs (xs : List String) (k : Nat) :
    ((countPairs xs).filter (fun q => q.2 = k)).map Prod.fst =
      (firstOccurrences xs).filter (fun v => xs.count v = k) := by
  rw [countPairs, List.filter_map, List.map_map]
  show ((firstOccurrences xs).filter (fun v => xs.count v = k)).map (fun v => v) =
    (firstOccurrences xs).filter (fun v => xs.count v = k)
  exact List.map_id _

theorem mostAbundant_spec (xs : List String) :
    mostAbundantOf (valueCounts xs) =
      ((firstOccurrences xs).filter
        (fun v => xs.count v = vcMax (valueCounts xs))).headD "" := by
  rw [mostAbundantOf, filter_valueCounts_count, mapfst_filter_countPairs]

theorem mostAbundant_mem (xs : List String) (hne : xs ≠ []) :
    mostAbundantOf (valueCounts xs) ∈ xs ∧
      xs.count (mostAbundantOf (valueCounts xs)) = vcMax (valueCounts xs) := by
  have hvcne : (valueCounts xs).map Prod.snd ≠ [] := by
    have hlen := (valueCounts_perm xs).length_eq
    have hfo := firstOccurrences_ne_nil hne
    intro hcon
    apply hfo
    have h0 : (valueCounts xs).length = 0 := by
      simpa using congrArg List.length hcon
    rw [h0] at hlen
    have hfo0 : (firstOccurrences xs).length = 0 := by
      simpa [countPairs] using hlen.symm
    exact List.eq_nil_of_length_eq_zero hfo0
  have hmax : vcMax (valueCounts xs) ∈ (valueCounts xs).map Prod.snd :=
    foldrMax_mem hvcne
  rcases List.mem_map.mp hmax with ⟨p, hpmem, hpsnd⟩
  have hp := mem_valueCounts.mp (show (p.1, p.2) ∈ valueCounts xs by simpa using hpmem)
  have hfilter_ne :
      (firstOccurrences xs).filter
        (fun v => xs.count v = vcMax (valueCounts xs)) ≠ [] := by
    intro hcon
    have hpin : p.1 ∈ (firstOccurrences xs).filter
        (fun v => xs.count v = vcMax (valueCounts xs)) := by
      apply List.mem_filter.mpr
      refine ⟨mem_firstOccurrences.mpr hp.1, ?_⟩
      simp [← hp.2, hpsnd]
    rw [hcon] at hpin
    simp at hpin
  have hhead := headD_mem hfilter_ne ""
  have hmem := List.mem_filter.mp hhead
  rw [mostAbundant_spec]
  refine ⟨mem_firstOccurrences.mp hmem.1, ?_⟩
  simpa using hmem.2

theorem mem_excludeClusters {xs : List String} {v : String} (hv : v ∈ xs) :
    v ∈ ((valueCounts xs).filter (fun p => p.2 = 1)).map Prod.fst ↔
      xs.count v = 1 := by
  rw [filter_valueCounts_count, mapfst_filter_countPairs]
  constructor
  · intro h
    have hm := List.mem_filter.mp h
    simpa using hm.2
  · intro h
    apply List.mem_filter.mpr
    refine ⟨mem_firstOccurrences.mpr hv, ?_⟩
    simpa using h

theorem postPass_pruned (subset : List Row) :
    postPass subset = subset.map (fun r =>
      if (subset.map Row.pruned).count r.pruned = 1
      then { r with pruned := mostAbundantOf (valueCounts (subset.map Row.pruned)) }
      else r) := by
  apply List.map_congr_left
  intro r hr
  have hmem : r.pruned ∈ subset.map Row.pruned := List.mem_map_of_mem Row.pruned hr
  by_cases h1 : (subset.map Row.pruned).count r.pruned = 1
  · rw [if_pos ((mem_excludeClusters hmem).mpr h1), if_pos h1]
  · rw [if_neg (fun hc => h1 ((mem_excludeClusters hmem).mp hc)), if_neg h1]

theorem postPass_of_no_singleton (subset : List Row)
    (h : ∀ v ∈ subset.map Row.pruned, (subset.map Row.pruned).count v ≠ 1) :
    postPass subset = subset := by
  rw [postPass_pruned]
  have hid : subset.map (fun r =>
      if (subset.map Row.pruned).count r.pruned = 1
      then { r with pruned := mostAbundantOf (valueCounts (subset.map Row.pruned)) }
      else r) = subset.map (fun r => r) := by
    apply List.map_congr_left
    intro r hr
    exact if_neg (h r.pruned (List.mem_map_of_mem Row.pruned hr))
  rw [hid]
  exact List.map_id _


theorem pairwise_lt_of_le_nodup {α : Type} (key : α → Nat) (xs : List α)
    (hle : xs.Pairwise (fun a b => key a ≤ key b)) (hnd : (xs.map key).Nodup) :
    xs.Pairwise (fun a b => key a < key b) := by
  have hne : xs.Pairwise (fun a b => key a ≠ key b) := List.pairwise_map.mp hnd
  exact (hle.and hne).imp (fun h => Nat.lt_of_le_of_ne h.1 h.2)

theorem eq_of_perm_key_sorted {α : Type} (key : α → Nat) (xs ys : List α)
    (hperm : List.Perm xs ys)
    (hx : xs.Pairwise (fun a b => key a ≤ key b))
    (hy : ys.Pairwise (fun a b => key a ≤ key b))
    (hnd : (xs.map key).Nodup) : xs = ys := by
  haveI : IsAntisymm α (fun a b => key a < key b) :=
    ⟨fun a b h1 h2 => absurd h2 (Nat.lt_asymm h1)⟩
  have hndy : (ys.map key).Nodup := ((hperm.map key).nodup_iff).mp hnd
  exact List.eq_of_perm_of_sorted hperm
    (pairwise_lt_of_le_nodup key xs hx hnd) (pairwise_lt_of_le_nodup key ys hy hndy)

theorem sortRowsByOri_perm (rows : List Row) :
    List.Perm (sortRowsByOri rows) rows :=
  List.perm_insertionSort oriLE rows

theorem sortRowsByOri_sorted (rows : List Row) :
    (sortRowsByOri rows).Pairwise oriLE :=
  List.sorted_insertionSort oriLE rows

theorem sortRowsByOri_restore {base xs : List Row} (hperm : List.Perm xs base)
    (hsorted : base.Pairwise oriLE) (hnd : (base.map Row.ori).Nodup) :
    sortRowsByOri xs = base := by
  have hndx : ((sortRowsByOri xs).map Row.ori).Nodup :=
    ((((sortRowsByOri_perm xs).trans hperm).map Row.ori).nodup_iff).mpr hnd
  exact eq_of_perm_key_sorted Row.ori (sortRowsByOri xs) base
    ((sortRowsByOri_perm xs).trans hperm) (sortRowsByOri_sorted xs) hsorted hndx

theorem attachOri_ori (obs : List Obs) :
    (attachOri obs).map Row.ori = List.range obs.length := by
  rw [attachOri, List.map_map]
  have hcomp : (Row.ori ∘ fun p : Nat × Obs => (⟨p.1, p.2.raw, p.2.ref, ""⟩ : Row)) =
      Prod.fst := rfl
  rw [hcomp, List.enum_map_fst]

theorem attachOri_nodup (obs : List Obs) : ((attachOri obs).map Row.ori).Nodup := by
  rw [attachOri_ori]
  exact List.nodup_range _

theorem attachOri_sorted (obs : List Obs) : (attachOri obs).Pairwise oriLE := by
  rw [attachOri]
  apply List.pairwise_map.mpr
  have henum : obs.enum.Pairwise (fun p q : Nat × Obs => p.1 < q.1) := by
    have hr : (obs.enum.map Prod.fst).Pairwise (fun a b : Nat => a < b) := by
      rw [List.enum_map_fst]
      exact List.pairwise_lt_range obs.length
    exact List.pairwise_map.mp hr
  exact henum.imp (fun h => Nat.le_of_lt h)

/-- Projection to the identity columns (ori, raw, ref): everything of a
row except the `pruned` output column. -/
def rowKey (r : Row) : Nat × String × String := (r.ori, r.raw, r.ref)

theorem postPass_rowKey (subset : List Row) :
    (postPass subset).map rowKey = subset.map rowKey := by
  rw [postPass, List.map_map]
  apply List.map_congr_left
  intro r _
  by_cases h : r.pruned ∈ ((valueCounts (subset.map Row.pruned)).filter
      (fun p => p.2 = 1)).map Prod.fst
  · simp only [Function.comp_apply, if_pos h]
    rfl
  · simp only [Function.comp_apply, if_neg h]

theorem flatten_filter_perm (key : Row → String) :
    ∀ (ks : List String) (rows : List Row), ks.Nodup → (∀ r ∈ rows, key r ∈ ks) →
      List.Perm ((ks.map (fun k => rows.filter (fun r => key r = k))).flatten) rows := by
  intro ks
  induction ks with
  | nil =>
      intro rows _ hcomplete
      cases rows with
      | nil => simp
      | cons r t => exact absurd (hcomplete r (List.mem_cons_self r t)) (by simp)
  | cons k ks ih =>
      intro rows hnd hcomplete
      simp only [List.map_cons, List.flatten_cons]
      have hkn : k ∉ ks := (List.nodup_cons.mp hnd).1
      have hrest : ∀ k2 ∈ ks, rows.filter (fun r => key r = k2) =
          (rows.filter (fun r => ¬ key r = k)).filter (fun r => key r = k2) := by
        intro k2 hk2
        rw [List.filter_filter]
        apply List.filter_congr
        intro r _
        by_cases h : key r = k2
        · have hne2 : ¬ k2 = k := fun hh => hkn (hh ▸ hk2)
          have hne : ¬ key r = k := by rw [h]; exact hne2
          simp [h, hne, hne2]
        · simp [h]
      have hmapcong : ks.map (fun k2 => rows.filter (fun r => key r = k2)) =
          ks.map (fun k2 =>
            (rows.filter (fun r => ¬ key r = k)).filter (fun r => key r = k2)) :=
        List.map_congr_left hrest
      rw [hmapcong]
      have hih := ih (rows.filter (fun r => ¬ key r = k)) (List.nodup_cons.mp hnd).2
        (by
          intro r hr
          have hr2 := List.mem_filter.mp hr
          have hkr := hcomplete r hr2.1
          rcases List.mem_cons.mp hkr with h | h
          · exact absurd h (by simpa using hr2.2)
          · exact h)
      refine (List.Perm.append_left _ hih).trans ?_
      have hconv : rows.filter (fun r => ¬ key r = k) =
          rows.filter (fun r => !(decide (key r = k))) := by
        apply List.filter_congr
        intro r _
        exact decide_not
      rw [hconv]
      exact List.filter_append_perm _ rows

theorem groupByRef_keys_nodup (rows : List Row) :
    (List.insertionSort strLE (firstOccurrences (rows.map Row.ref))).Nodup :=
  ((List.perm_insertionSort strLE _).nodup_iff).mpr
    (nodup_firstOccurrences (rows.map Row.ref))

theorem groupByRef_flatten_perm (rows : List Row) :
    List.Perm (((groupByRef rows).map Prod.snd).flatten) rows := by
  rw [groupByRef, List.map_map]
  have hcomp : (Prod.snd ∘ fun k => (k, rows.filter (fun r => r.ref = k))) =
      (fun k => rows.filter (fun r => r.ref = k)) := rfl
  rw [hcomp]
  apply flatten_filter_perm Row.ref _ rows (groupByRef_keys_nodup rows)
  intro r hr
  exact ((List.perm_insertionSort strLE _).mem_iff).mpr
    (mem_firstOccurrences.mpr (List.mem_map_of_mem Row.ref hr))


theorem run_reference_pruning_rowKey (chunk : String × List Row) (reference : String)
    (sizeDict : String → String → Nat) (obsLen : Nat) :
    (run_reference_pruning chunk reference sizeDict obsLen).map rowKey =
      chunk.2.map rowKey := by
  simp only [run_reference_pruning]
  rw [postPass_rowKey, List.map_map]
  apply List.map_congr_left
  intro r _
  rfl

theorem map_rowKey_sort_eq {xs : List Row} {obs : List Obs}
    (hperm : List.Perm (xs.map rowKey) ((attachOri obs).map rowKey)) :
    (sortRowsByOri xs).map rowKey = (attachOri obs).map rowKey := by
  have hfst : ∀ l : List Row,
      (l.map rowKey).map (fun p : Nat × String × String => p.1) = l.map Row.ori := by
    intro l
    rw [List.map_map]
    rfl
  apply eq_of_perm_key_sorted (fun p : Nat × String × String => p.1)
  · exact ((sortRowsByOri_perm xs).map rowKey).trans hperm
  · exact List.pairwise_map.mpr ((sortRowsByOri_sorted xs).imp (fun h => h))
  · exact List.pairwise_map.mpr ((attachOri_sorted obs).imp (fun h => h))
  · rw [hfst]
    have hpm : List.Perm ((sortRowsByOri xs).map Row.ori) ((attachOri obs).map Row.ori) := by
      have h1 := (((sortRowsByOri_perm xs).map rowKey).trans hperm).map
        (fun p : Nat × String × String => p.1)
      rw [hfst, hfst] at h1
      exact h1
    exact (hpm.nodup_iff).mpr (attachOri_nodup obs)

theorem grouped_postPass_perm (m : List Row) :
    List.Perm ((((groupByRef m).map (fun g => postPass g.2)).flatten).map rowKey)
      (m.map rowKey) := by
  rw [List.map_flatten, List.map_map]
  have hcong : (groupByRef m).map ((List.map rowKey) ∘ (fun g => postPass g.2)) =
      (groupByRef m).map (fun g => g.2.map rowKey) := by
    apply List.map_congr_left
    intro g _
    exact postPass_rowKey g.2
  rw [hcong]
  have hmm : (groupByRef m).map (fun g => g.2.map rowKey) =
      ((groupByRef m).map Prod.snd).map (List.map rowKey) := by
    rw [List.map_map]
    rfl
  rw [hmm, ← List.map_flatten]
  exact (groupByRef_flatten_perm m).map rowKey

theorem reference_pruning_rowKey (obs : List Obs) (reference : String)
    (sizeDict : String → String → Nat) :
    (reference_pruning obs reference sizeDict).map rowKey =
      (attachOri obs).map rowKey := by
  simp only [reference_pruning]
  apply map_rowKey_sort_eq
  rw [List.map_flatten, List.map_map]
  have hcong : (groupByRef (attachOri obs)).map
      ((List.map rowKey) ∘
        (fun chunk => run_reference_pruning chunk reference sizeDict (attachOri obs).length)) =
      (groupByRef (attachOri obs)).map (fun chunk => chunk.2.map rowKey) := by
    apply List.map_congr_left
    intro ch _
    exact run_reference_pruning_rowKey ch reference sizeDict _
  rw [hcong]
  have hmm : (groupByRef (attachOri obs)).map (fun chunk => chunk.2.map rowKey) =
      ((groupByRef (attachOri obs)).map Prod.snd).map (List.map rowKey) := by
    rw [List.map_map]
    rfl
  rw [hmm, ← List.map_flatten]
  exact (groupByRef_flatten_perm (attachOri obs)).map rowKey

theorem reassign_filter_perm (rows : List Row) (invalid : List String) :
    List.Perm (rows.filter (fun r => r.raw ∉ invalid) ++
      rows.filter (fun r => r.raw ∈ invalid)) rows := by
  have hconv : rows.filter (fun r => r.raw ∉ invalid) =
      rows.filter (fun r => !(decide (r.raw ∈ invalid))) := by
    apply List.filter_congr
    intro r _
    exact decide_not
  rw [hconv]
  exact (List.perm_append_comm).trans (List.filter_append_perm _ rows)

theorem map_rowKey_set_pruned (l : List Row) (f : Row → String) :
    (l.map (fun r => { r with pruned := f r })).map rowKey = l.map rowKey := by
  rw [List.map_map]
  apply List.map_congr_left
  intro r _
  rfl

theorem reassign_pruning_rowKey (obs : List Obs) (sizeDict : String → String → Nat)
    (invalid0 : List String) (pred : Row → String) :
    ((reassign_pruning obs sizeDict invalid0 pred).1).map rowKey =
      (attachOri obs).map rowKey := by
  simp only [reassign_pruning]
  apply map_rowKey_sort_eq
  refine (grouped_postPass_perm _).trans ?_
  refine ((sortRowsByOri_perm _).map rowKey).trans ?_
  rw [List.map_append, map_rowKey_set_pruned, map_rowKey_set_pruned, ← List.map_append]
  exact (reassign_filter_perm _ _).map rowKey

theorem lookup_keyed_map {β : Type} (F : String → Nat → β) :
    ∀ (l : List (String × Nat)) (c : String) (n : Nat),
      (c, n) ∈ l → (l.map Prod.fst).Nodup →
      (l.map (fun p => (p.1, F p.1 p.2))).lookup c = some (F c n) := by
  intro l
  induction l with
  | nil =>
      intro c n h _
      simp at h
  | cons p t ih =>
      intro c n hmem hnd
      rcases List.mem_cons.mp hmem with heq | hmemt
      · cases heq.symm
        simp [List.lookup]
      · by_cases hpc : p.1 = c
        · exfalso
          have hc : c ∈ t.map Prod.fst := by
            have := List.mem_map_of_mem Prod.fst hmemt
            simpa using this
          exact (List.nodup_cons.mp hnd).1 (hpc ▸ hc)
        · have hcp : (c == p.1) = false := beq_eq_false_iff_ne.mpr (fun h => hpc h.symm)
          simp only [List.map_cons, List.lookup, hcp]
          exact ih c n hmemt (List.nodup_cons.mp hnd).2

theorem foldl_invalid_append (absThresh : Nat) (sizeDict : String → String → Nat) :
    ∀ (vc : List (String × Nat)) (acc : List String),
      vc.foldl (fun acc p =>
        if p.2 < absThresh then acc ++ [p.1]
        else if divLT p.2 (sizeDict (labelingOf p.1) (clusterOf p.1)) 5 100 then acc ++ [p.1]
        else acc) acc =
      acc ++ (vc.filter (fun p =>
        p.2 < absThresh ∨
          divLT p.2 (sizeDict (labelingOf p.1) (clusterOf p.1)) 5 100)).map Prod.fst := by
  intro vc
  induction vc with
  | nil => intro acc; simp
  | cons p t ih =>
      intro acc
      simp only [List.foldl_cons, List.filter_cons]
      by_cases h1 : p.2 < absThresh
      · rw [if_pos h1, ih]
        have hp : (decide (p.2 < absThresh ∨
            divLT p.2 (sizeDict (labelingOf p.1) (clusterOf p.1)) 5 100)) = true := by
          simp [h1]
        rw [hp]
        simp
      · rw [if_neg h1]
        by_cases h2 : divLT p.2 (sizeDict (labelingOf p.1) (clusterOf p.1)) 5 100
        · rw [if_pos h2, ih]
          have hp : (decide (p.2 < absThresh ∨
              divLT p.2 (sizeDict (labelingOf p.1) (clusterOf p.1)) 5 100)) = true := by
            simp [h2]
          rw [hp]
          simp
        · rw [if_neg h2, ih]
          have hp : (decide (p.2 < absThresh ∨
              divLT p.2 (sizeDict (labelingOf p.1) (clusterOf p.1)) 5 100)) = false := by
            simp [h1, h2]
          rw [hp]
          simp

theorem mem_computeInvalid {rows : List Row} {sizeDict : String → String → Nat}
    {invalid0 : List String} {c : String} :
    c ∈ computeInvalid rows sizeDict invalid0 ↔
      c ∈ invalid0 ∨ (c ∈ rows.map Row.raw ∧
        ((rows.map Row.raw).count c < absThreshOf rows.length ∨
          divLT ((rows.map Row.raw).count c)
            (sizeDict (labelingOf c) (clusterOf c)) 5 100)) := by
  simp only [computeInvalid]
  rw [mem_firstOccurrences, foldl_invalid_append, List.mem_append]
  constructor
  · rintro (h | h)
    · exact Or.inl h
    · right
      rcases List.mem_map.mp h with ⟨p, hpf, hpfst⟩
      have hpmem := List.mem_filter.mp hpf
      have hp := mem_valueCounts.mp
        (show (p.1, p.2) ∈ valueCounts (rows.map Row.raw) by simpa using hpmem.1)
      have hcond := hpmem.2
      rw [hpfst] at hp
      refine ⟨hp.1, ?_⟩
      have hcount : p.2 = (rows.map Row.raw).count c := hp.2
      rw [← hcount]
      have := of_decide_eq_true hcond
      rw [hpfst] at this
      exact this
  · rintro (h | ⟨hmem, hcond⟩)
    · exact Or.inl h
    · right
      apply List.mem_map.mpr
      refine ⟨(c, (rows.map Row.raw).count c), ?_, rfl⟩
      apply List.mem_filter.mpr
      refine ⟨mem_valueCounts.mpr ⟨hmem, rfl⟩, ?_⟩
      exact decide_eq_true hcond

theorem computeInvalid_nodup (rows : List Row) (sizeDict : String → String → Nat)
    (invalid0 : List String) : (computeInvalid rows sizeDict invalid0).Nodup :=
  nodup_firstOccurrences _


theorem sortRowsByOri_of_sorted {l : List Row} (h : l.Pairwise oriLE) :
    sortRowsByOri l = l :=
  List.Sorted.insertionSort_eq h

theorem computeInvalid_eq_nil {rows : List Row} {sizeDict : String → String → Nat}
    (h : ∀ c ∈ rows.map Row.raw,
      ¬ (rows.map Row.raw).count c < absThreshOf rows.length ∧
      ¬ divLT ((rows.map Row.raw).count c)
        (sizeDict (labelingOf c) (clusterOf c)) 5 100) :
    computeInvalid rows sizeDict [] = [] := by
  simp only [computeInvalid]
  rw [foldl_invalid_append]
  have hfil : (valueCounts (rows.map Row.raw)).filter (fun p =>
      p.2 < absThreshOf rows.length ∨
        divLT p.2 (sizeDict (labelingOf p.1) (clusterOf p.1)) 5 100) = [] := by
    rw [List.filter_eq_nil_iff]
    intro p hp
    have hp2 := mem_valueCounts.mp
      (show (p.1, p.2) ∈ valueCounts (rows.map Row.raw) by simpa using hp)
    have hc := h p.1 hp2.1
    rw [hp2.2]
    simp [hc.1, hc.2]
  rw [hfil]
  rfl

theorem reassign_pruning_noop (obs : List Obs) (sizeDict : String → String → Nat)
    (pred : Row → String)
    (hinv : computeInvalid (attachOri obs) sizeDict [] = [])
    (hsing : ∀ k ∈ (attachOri obs).map Row.ref,
      ∀ c ∈ ((attachOri obs).filter (fun r => r.ref = k)).map Row.raw,
      (((attachOri obs).filter (fun r => r.ref = k)).map Row.raw).count c ≠ 1) :
    (reassign_pruning obs sizeDict [] pred).1 =
      (attachOri obs).map (fun r => { r with pruned := r.raw }) := by
  simp only [reassign_pruning, hinv]
  have hvalid : (attachOri obs).filter (fun r => r.raw ∉ ([] : List String)) =
      attachOri obs := by
    apply List.filter_eq_self.mpr
    intro r _
    simp
  have hinvalid : (attachOri obs).filter (fun r => r.raw ∈ ([] : List String)) = [] := by
    rw [List.filter_eq_nil_iff]
    intro r _
    simp
  rw [hvalid, hinvalid]
  simp only [List.map_nil, List.append_nil]
  have htrain_sorted :
      ((attachOri obs).map (fun r => { r with pruned := r.raw })).Pairwise oriLE :=
    List.pairwise_map.mpr ((attachOri_sorted obs).imp (fun h => h))
  rw [sortRowsByOri_of_sorted htrain_sorted]
  have hpost : (groupByRef ((attachOri obs).map (fun r => { r with pruned := r.raw }))).map
      (fun g => postPass g.2) =
      (groupByRef ((attachOri obs).map (fun r => { r with pruned := r.raw }))).map
        Prod.snd := by
    apply List.map_congr_left
    intro g hg
    rcases List.mem_map.mp hg with ⟨k, hk, heq⟩
    rw [← heq]
    apply postPass_of_no_singleton
    have hfm : ((attachOri obs).map (fun r => { r with pruned := r.raw })).filter
        (fun r => r.ref = k) =
        ((attachOri obs).filter (fun r => r.ref = k)).map
          (fun r => { r with pruned := r.raw }) := by
      rw [List.filter_map]
      rfl
    have hS : (((attachOri obs).map (fun r => { r with pruned := r.raw })).filter
        (fun r => r.ref = k)).map Row.pruned =
        ((attachOri obs).filter (fun r => r.ref = k)).map Row.raw := by
      rw [hfm, List.map_map]
      rfl
    have hkref : k ∈ (attachOri obs).map Row.ref := by
      have hmapref : ((attachOri obs).map (fun r => { r with pruned := r.raw })).map Row.ref =
          (attachOri obs).map Row.ref := by
        rw [List.map_map]
        rfl
      have hkmem := mem_firstOccurrences.mp
        (((List.perm_insertionSort strLE _).mem_iff).mp hk)
      rw [hmapref] at hkmem
      exact hkmem
    intro v hv
    rw [hS] at hv
    rw [hS]
    exact hsing k hkref v hv
  rw [hpost]
  apply sortRowsByOri_restore (groupByRef_flatten_perm _) htrain_sorted
  have hori : (((attachOri obs).map (fun r => { r with pruned := r.raw })).map Row.ori) =
      (attachOri obs).map Row.ori := by
    rw [List.map_map]
    rfl
  rw [hori]
  exact attachOri_nodup obs


theorem string_ext {a b : String} (h : a.data = b.data) : a = b := by
  cases a
  cases b
  exact congrArg String.mk h

theorem append_at_key_inj {m1 m2 key : String}
    (h : m1 ++ "@" ++ key = m2 ++ "@" ++ key) : m1 = m2 := by
  have hd := congrArg String.data h
  rw [String.data_append, String.data_append, String.data_append, String.data_append] at hd
  exact string_ext (List.append_cancel_right (List.append_cancel_right hd))

theorem clusterDecision_mono (reference refCluster : String)
    (sizeDict : String → String → Nat) (total : Nat) {t1 t2 : Nat} (h : t1 ≤ t2)
    (cluster : String) (countCluster : Nat)
    (hd : clusterDecision reference refCluster sizeDict t1 total cluster countCluster =
      reference ++ "@" ++ refCluster) :
    clusterDecision reference refCluster sizeDict t2 total cluster countCluster =
      reference ++ "@" ++ refCluster := by
  unfold clusterDecision at hd ⊢
  by_cases b1 : divGE countCluster (sizeDict (labelingOf cluster) (clusterOf cluster)) 6 10
  · rw [if_pos b1] at hd ⊢
    exact hd
  · rw [if_neg b1] at hd ⊢
    by_cases b2 : divGE countCluster total 5 100
    · rw [if_pos b2] at hd ⊢
      exact hd
    · rw [if_neg b2] at hd ⊢
      by_cases b3 : divLT countCluster total 5 100 ∧ countCluster > t1
      · rw [if_pos b3] at hd
        by_cases b4 : divLT countCluster total 5 100 ∧ countCluster > t2
        · rw [if_pos b4]
          exact hd
        · rw [if_neg b4]
      · have hnot : ¬ (divLT countCluster total 5 100 ∧ countCluster > t2) := by
          intro hb
          exact b3 ⟨hb.1, Nat.lt_of_le_of_lt h hb.2⟩
        rw [if_neg hnot]

/-- C1: for every raw cluster present in a reference group processed by
`run_reference_pruning`, the pruned mapping follows the
first-matching-rule policy: if the in-chunk count over the SizeIndex
size is at least 6/10 the cluster maps to itself; else if the in-chunk
count over the chunk size is at least 5/100 it maps to itself; else if
that proportion is below 5/100 and the absolute count is strictly above
the floor it maps to itself; otherwise it maps to the composite label
reference@referenceCluster. -/
theorem claim_C1 (reference refCluster : String) (sizeDict : String → String → Nat)
    (obsLen : Nat) (subset : List Row) (c : String)
    (hc : c ∈ subset.map Row.raw) :
    (buildMapping reference refCluster sizeDict (absThreshOf obsLen)
        (valueCounts (subset.map Row.raw))).lookup c =
      some (
        if divGE ((subset.map Row.raw).count c)
            (sizeDict (labelingOf c) (clusterOf c)) 6 10 then c
        else if divGE ((subset.map Row.raw).count c) subset.length 5 100 then c
        else if divLT ((subset.map Row.raw).count c) subset.length 5 100 ∧
            (subset.map Row.raw).count c > absThreshOf obsLen then c
        else reference ++ "@" ++ refCluster) := by
  have hmem : (c, (subset.map Row.raw).count c) ∈ valueCounts (subset.map Row.raw) :=
    mem_valueCounts.mpr ⟨hc, rfl⟩
  have h := lookup_keyed_map
    (clusterDecision reference refCluster sizeDict (absThreshOf obsLen)
      (((valueCounts (subset.map Row.raw)).map Prod.snd).sum))
    (valueCounts (subset.map Row.raw)) c ((subset.map Row.raw).count c)
    hmem (valueCounts_keys_nodup _)
  simp only [buildMapping]
  rw [h, sum_valueCounts, List.length_map]
  rfl

/-- C1 witness: in a chunk holding two observations of cluster q@A (of
SizeIndex size 2, fully included) and one of q@B, cluster q@A is kept as
itself. -/
theorem claim_C1_witness :
    ("q@A" ∈ ([⟨0, "q@A", "R1", ""⟩, ⟨1, "q@A", "R1", ""⟩,
        ⟨2, "q@B", "R1", ""⟩] : List Row).map Row.raw) ∧
    (buildMapping "gs" "R1" (fun _l c => if c = "A" then 2 else 40) (absThreshOf 3)
        (valueCounts (([⟨0, "q@A", "R1", ""⟩, ⟨1, "q@A", "R1", ""⟩,
          ⟨2, "q@B", "R1", ""⟩] : List Row).map Row.raw))).lookup "q@A" =
      some "q@A" :=
  ⟨by decide,
    (claim_C1 "gs" "R1" (fun _l c => if c = "A" then 2 else 40) 3
      [⟨0, "q@A", "R1", ""⟩, ⟨1, "q@A", "R1", ""⟩, ⟨2, "q@B", "R1", ""⟩]
      "q@A" (by decide)).trans (by decide)⟩

/-- C2: in reassign pruning the absolute-size floor is 10 below 50,000
observations and 30 otherwise, a raw cluster is marked invalid exactly
when its count is strictly below the floor, or strictly below five
percent of its SizeIndex size, or it is in the externally supplied
list, and the resulting invalid list is a deduplicated union. -/
theorem claim_C2 (obs : List Obs) (sizeDict : String → String → Nat)
    (invalid0 : List String) :
    absThreshOf (attachOri obs).length =
      (if (attachOri obs).length < 50000 then 10 else 30) ∧
    (∀ c, c ∈ computeInvalid (attachOri obs) sizeDict invalid0 ↔
      (c ∈ invalid0 ∨ (c ∈ (attachOri obs).map Row.raw ∧
        (((attachOri obs).map Row.raw).count c < absThreshOf (attachOri obs).length ∨
          divLT (((attachOri obs).map Row.raw).count c)
            (sizeDict (labelingOf c) (clusterOf c)) 5 100)))) ∧
    (computeInvalid (attachOri obs) sizeDict invalid0).Nodup :=
  ⟨rfl, fun _ => mem_computeInvalid, computeInvalid_nodup _ _ _⟩

/-- C4: the `method == "reassign"` branch of `pruning` fails before
producing any pruned label: binding the call against the one-parameter
signature of `reassign_pruning` raises TypeError for the unexpected
keyword arguments, and the module-level name `adata`, which the body
would read first, is not defined in prune.py. -/
theorem claim_C4 :
    pruningReassignCall = Except.error "TypeError: unexpected keyword argument" ∧
    bindCall reassignPruningParams 1 pruningCallKwargs =
      Except.error "TypeError: unexpected keyword argument" ∧
    "adata" ∉ pruneModuleGlobals :=
  ⟨rfl, rfl, by decide⟩

/-- C7: for a fixed dataset, increasing the absolute-count floor of the
reference-pruning decision never decreases the number of raw clusters
mapped to the composite reference parent label. -/
theorem claim_C7 (reference refCluster : String) (sizeDict : String → String → Nat)
    (subset : List Row) (t1 t2 : Nat) (h : t1 ≤ t2) :
    (buildMapping reference refCluster sizeDict t1
        (valueCounts (subset.map Row.raw))).countP
        (fun e => e.2 = reference ++ "@" ++ refCluster) ≤
      (buildMapping reference refCluster sizeDict t2
        (valueCounts (subset.map Row.raw))).countP
        (fun e => e.2 = reference ++ "@" ++ refCluster) := by
  simp only [buildMapping]
  rw [List.countP_map, List.countP_map]
  apply List.countP_mono_left
  intro p _
  intro hd
  exact decide_eq_true
    (clusterDecision_mono reference refCluster sizeDict _ h p.1 p.2 (of_decide_eq_true hd))

/-- C7 witness: with floors 0 and 5 on a chunk with a rare singleton
cluster, the folded-back count can only grow. -/
theorem claim_C7_witness :
    (0 : Nat) ≤ 5 ∧
    (buildMapping "gs" "R1" (fun _l _c => 100) 0
        (valueCounts (([⟨0, "q@A", "R1", ""⟩, ⟨1, "q@B", "R1", ""⟩] : List Row).map
          Row.raw))).countP (fun e => e.2 = "gs" ++ "@" ++ "R1") ≤
      (buildMapping "gs" "R1" (fun _l _c => 100) 5
        (valueCounts (([⟨0, "q@A", "R1", ""⟩, ⟨1, "q@B", "R1", ""⟩] : List Row).map
          Row.raw))).countP (fun e => e.2 = "gs" ++ "@" ++ "R1") :=
  ⟨by decide,
    claim_C7 "gs" "R1" (fun _l _c => 100) [⟨0, "q@A", "R1", ""⟩, ⟨1, "q@B", "R1", ""⟩]
      0 5 (by decide)⟩

/-- C8: `add_to_invalid` deduplicates on every call, but `clear_invalid`
deletes the `invalid` attribute and assigns the misspelled attribute
`invaild`, so afterwards the attribute `invalid` of the object does not
exist, contradicting the claim that it exists and is the empty list. -/
theorem claim_C8_eval :
    (add_to_invalid (add_to_invalid ⟨none, none⟩ ["gs@1", "gs@2", "gs@1"])
        ["gs@2", "gs@3"]).invalid = some ["gs@1", "gs@2", "gs@3"] ∧
    (∀ (st : InvalidSlots) (xs : List String),
      ((add_to_invalid st xs).invalid.getD []).Nodup) ∧
    (clear_invalid ⟨some ["gs@1", "gs@2"], none⟩).invalid = none ∧
    (clear_invalid ⟨some ["gs@1", "gs@2"], none⟩).invaild = some [] := by
  refine ⟨by decide, ?_, rfl, rfl⟩
  intro st xs
  exact nodup_firstOccurrences _


/-- C6: in the post-pass of both pruning strategies, within a group
every observation whose pruned cluster has exactly one member is
reassigned to the most populous pruned cluster of the group (the
first-encountered one among ties), and observations in pruned clusters
of two or more members keep their pruned label. -/
theorem claim_C6 (subset : List Row) (hne : subset ≠ []) :
    postPass subset = subset.map (fun r =>
      if (subset.map Row.pruned).count r.pruned = 1
      then { r with pruned := mostAbundantOf (valueCounts (subset.map Row.pruned)) }
      else r) ∧
    mostAbundantOf (valueCounts (subset.map Row.pruned)) ∈ subset.map Row.pruned ∧
    (∀ v ∈ subset.map Row.pruned,
      (subset.map Row.pruned).count v ≤
        (subset.map Row.pruned).count
          (mostAbundantOf (valueCounts (subset.map Row.pruned)))) ∧
    mostAbundantOf (valueCounts (subset.map Row.pruned)) =
      ((firstOccurrences (subset.map Row.pruned)).filter
        (fun v => (subset.map Row.pruned).count v =
          (subset.map Row.pruned).count
            (mostAbundantOf (valueCounts (subset.map Row.pruned))))).headD "" := by
  have hlab : subset.map Row.pruned ≠ [] := by
    intro h
    exact hne (List.map_eq_nil_iff.mp h)
  have hm := mostAbundant_mem (subset.map Row.pruned) hlab
  refine ⟨postPass_pruned subset, hm.1, ?_, ?_⟩
  · intro v hv
    rw [hm.2]
    exact vcMax_count_le hv
  · simp only [hm.2]
    exact mostAbundant_spec _

/-- C6 witness: in a group whose pruned labels are x, y, y the singleton
x is folded into the most populous cluster y and the y rows keep their
label. -/
theorem claim_C6_witness :
    subsetW6 ≠ [] ∧
    postPass subsetW6 =
      [⟨0, "a", "R1", "y"⟩, ⟨1, "b", "R1", "y"⟩, ⟨2, "c", "R1", "y"⟩] :=
  ⟨by decide, ((claim_C6 subsetW6 (by decide)).1).trans (by decide)⟩

/-- C10: in both branches of `compute_shapley` the data tensor holds one
column for every metric of `total_metrics` except `doublet`, which never
participates in attribution even though it is a registered metric with a
`metric@labeling` observation column. -/
theorem claim_C10 (added : List String) (key : String) (hadd : "doublet" ∉ added) :
    scoreColname (totalMetrics added) =
      (totalMetrics added).filter (fun m => m ≠ "doublet") ∧
    "doublet" ∈ totalMetrics added ∧
    practicalColname (totalMetrics added) key =
      ((totalMetrics added).filter (fun m => m ≠ "doublet")).map
        (fun m => m ++ "@" ++ key) ∧
    ("doublet" ++ "@" ++ key) ∈ obsMetricColumns (totalMetrics added) key ∧
    ("doublet" ++ "@" ++ key) ∉ practicalColname (totalMetrics added) key := by
  have h1 : scoreColname (totalMetrics added) =
      (totalMetrics added).filter (fun m => m ≠ "doublet") := by
    simp only [scoreColname, totalMetrics]
    rw [List.erase_append_left added (by decide : "doublet" ∈ defaultMetrics)]
    have hda : defaultMetrics.erase "doublet" =
        defaultMetrics.filter (fun m => m ≠ "doublet") := by decide
    have hadd2 : added.filter (fun m => m ≠ "doublet") = added := by
      apply List.filter_eq_self.mpr
      intro m hm
      have hmd : m ≠ "doublet" := fun h => hadd (h ▸ hm)
      simpa using hmd
    rw [List.filter_append, hda, hadd2]
  refine ⟨h1, ?_, ?_, ?_, ?_⟩
  · simp [totalMetrics, defaultMetrics]
  · rw [practicalColname, h1]
  · exact List.mem_map.mpr ⟨"doublet", by simp [totalMetrics, defaultMetrics], rfl⟩
  · intro hmem
    rw [practicalColname, h1] at hmem
    rcases List.mem_map.mp hmem with ⟨m, hmf, heq⟩
    have hm2 := List.mem_filter.mp hmf
    have hmd : m = "doublet" := append_at_key_inj heq
    rw [hmd] at hm2
    simpa using hm2.2

/-- C10 witness: with one user-registered metric the tensor columns for
labeling leiden1 omit exactly the doublet column. -/
theorem claim_C10_witness :
    ("doublet" ∉ ["tfidf5"]) ∧
    practicalColname (totalMetrics ["tfidf5"]) "leiden1" =
      ["reassign@leiden1", "tfidf10@leiden1", "SCCAF@leiden1", "tfidf5@leiden1"] ∧
    ("doublet" ++ "@" ++ "leiden1") ∉ practicalColname (totalMetrics ["tfidf5"]) "leiden1" :=
  ⟨by decide,
    ((claim_C10 ["tfidf5"] "leiden1" (by decide)).2.2.1).trans (by decide),
    (claim_C10 ["tfidf5"] "leiden1" (by decide)).2.2.2.2⟩

/-- C5 counterexample: on a table where no raw cluster is below the
floor or below five percent of its SizeIndex size and the external
invalid list is empty, reassign pruning is still not a no-op: the
single q@A observation of reference group R2 is reassigned to q@C by
the singleton post-pass. -/
theorem claim_C5_counterexample :
    (∀ c ∈ (attachOri obsW5).map Row.raw,
      ¬ ((attachOri obsW5).map Row.raw).count c < absThreshOf (attachOri obsW5).length ∧
      ¬ divLT (((attachOri obsW5).map Row.raw).count c)
        (sizeDictW (labelingOf c) (clusterOf c)) 5 100) ∧
    computeInvalid (attachOri obsW5) sizeDictW [] = [] ∧
    ((reassign_pruning obsW5 sizeDictW [] (fun _ => "")).1[9]?) =
      some ⟨9, "q@A", "R2", "q@C"⟩ :=
  ⟨by decide, by decide, by decide⟩

/-- C5 amended: if no raw cluster of the input is below the absolute
floor or below five percent of its SizeIndex size, the externally
supplied invalid list is empty, and additionally no raw cluster is a
singleton inside any reference group, then reassign pruning is a no-op:
the pruned label of every observation equals its raw label. -/
theorem claim_C5_amended (obs : List Obs) (sizeDict : String → String → Nat)
    (pred : Row → String)
    (hthresh : ∀ c ∈ (attachOri obs).map Row.raw,
      ¬ ((attachOri obs).map Row.raw).count c < absThreshOf (attachOri obs).length ∧
      ¬ divLT (((attachOri obs).map Row.raw).count c)
        (sizeDict (labelingOf c) (clusterOf c)) 5 100)
    (hsing : ∀ k ∈ (attachOri obs).map Row.ref,
      ∀ c ∈ ((attachOri obs).filter (fun r => r.ref = k)).map Row.raw,
      (((attachOri obs).filter (fun r => r.ref = k)).map Row.raw).count c ≠ 1) :
    ∀ r ∈ (reassign_pruning obs sizeDict [] pred).1, r.pruned = r.raw := by
  intro r hr
  rw [reassign_pruning_noop obs sizeDict pred (computeInvalid_eq_nil hthresh) hsing] at hr
  rcases List.mem_map.mp hr with ⟨r0, _, rfl⟩
  rfl

/-- C5 witness: on a balanced table with no undersized cluster and no
group singleton, every pruned label equals its raw label. -/
theorem claim_C5_witness :
    (∀ c ∈ (attachOri obsW5b).map Row.raw,
      ¬ ((attachOri obsW5b).map Row.raw).count c < absThreshOf (attachOri obsW5b).length ∧
      ¬ divLT (((attachOri obsW5b).map Row.raw).count c)
        (sizeDictW (labelingOf c) (clusterOf c)) 5 100) ∧
    (∀ r ∈ (reassign_pruning obsW5b sizeDictW [] (fun _ => "")).1, r.pruned = r.raw) :=
  ⟨by decide,
    claim_C5_amended obsW5b sizeDictW (fun _ => "") (by decide) (by decide)⟩

/-- C9 counterexample: the mapping-file header names three tab-separated
fields, but the first data line written for the concrete pruned table
has exactly two tab-separated fields, not three. -/
theorem claim_C9_counterexample :
    tabFields "reference\tcell_cluster\tchoice" = 3 ∧
    (celltypeSheetLines "gs" rowsW9)[1]? = some "gs@R1\tq@A" ∧
    tabFields "gs@R1\tq@A" = 2 :=
  ⟨by decide, by decide, by decide⟩

/-- C9 amended: after the header line, each data line of the celltype
mapping file is a two-field tab-separated pair, the reference group
label and one pruned cluster; the choice field named by the header is
not written (it is left for downstream completion). -/
theorem claim_C9_amended (reference : String) (obs : List Row)
    (h1 : reference.data.count '\t' = 0)
    (h2 : ∀ r ∈ obs, r.ref.data.count '\t' = 0 ∧ r.pruned.data.count '\t' = 0) :
    ∀ line ∈ (celltypeSheetLines reference obs).tail, tabFields line = 2 := by
  intro line hline
  simp only [celltypeSheetLines, List.tail_cons] at hline
  rcases List.mem_flatten.mp hline with ⟨block, hblock, hlineb⟩
  rcases List.mem_map.mp hblock with ⟨g, hg, rfl⟩
  rcases List.mem_map.mp hlineb with ⟨reassign, hre, rfl⟩
  rcases List.mem_map.mp hg with ⟨k, hk, rfl⟩
  have hk2 : k ∈ obs.map Row.ref :=
    mem_firstOccurrences.mp (((List.perm_insertionSort strLE _).mem_iff).mp hk)
  rcases List.mem_map.mp hk2 with ⟨r, hrmem, rfl⟩
  have hre2 : reassign ∈ (obs.filter (fun r2 => r2.ref = r.ref)).map Row.pruned :=
    mem_firstOccurrences.mp hre
  rcases List.mem_map.mp hre2 with ⟨r2, hr2mem, rfl⟩
  have hr2obs : r2 ∈ obs := (List.mem_filter.mp hr2mem).1
  simp only [tabFields, String.data_append, List.count_append]
  rw [h1, (h2 r hrmem).1, (h2 r2 hr2obs).2]
  decide

/-- C9 witness: on the concrete pruned table the first data line has
two tab-separated fields. -/
theorem claim_C9_witness :
    ("gs" : String).data.count '\t' = 0 ∧
    ("gs@R1\tq@A" ∈ (celltypeSheetLines "gs" rowsW9).tail) ∧
    tabFields "gs@R1\tq@A" = 2 :=
  ⟨by decide, by decide,
    claim_C9_amended "gs" rowsW9 (by decide) (by decide) "gs@R1\tq@A" (by decide)⟩

/-- C3: both pruning strategies return the observations in exactly the
original input order — the identity columns of the result, in order,
equal those of the input table with the original-position column
attached — and, for every partition of the table into chunks and every
completion order of the chunks, concatenating and sorting on the
original-position column restores the input table. -/
theorem claim_C3 :
    (∀ (obs : List Obs) (reference : String) (sizeDict : String → String → Nat),
      (reference_pruning obs reference sizeDict).map rowKey =
        (attachOri obs).map rowKey) ∧
    (∀ (obs : List Obs) (sizeDict : String → String → Nat)
        (invalid0 : List String) (pred : Row → String),
      ((reassign_pruning obs sizeDict invalid0 pred).1).map rowKey =
        (attachOri obs).map rowKey) ∧
    (∀ (obs : List Obs) (pieces altOrder : List (List Row)),
      List.Perm altOrder pieces → List.Perm pieces.flatten (attachOri obs) →
      sortRowsByOri altOrder.flatten = attachOri obs) :=
  ⟨fun obs reference sizeDict => reference_pruning_rowKey obs reference sizeDict,
   fun obs sizeDict invalid0 pred => reassign_pruning_rowKey obs sizeDict invalid0 pred,
   fun obs _pieces _altOrder h1 h2 =>
     sortRowsByOri_restore ((h1.flatten).trans h2) (attachOri_sorted obs)
       (attachOri_nodup obs)⟩

/-- C3 witness: a two-chunk partition of a three-row table, collected in
swapped completion order, is restored to the input order by the sort on
the original-position column. -/
theorem claim_C3_witness :
    List.Perm piecesAltW3 piecesW3 ∧
    List.Perm piecesW3.flatten (attachOri obsW3) ∧
    sortRowsByOri piecesAltW3.flatten = attachOri obsW3 :=
  ⟨by decide, by decide,
    claim_C3.2.2 obsW3 piecesW3 piecesAltW3 (by decide) (by decide)⟩

end ScTri
